import Mathlib

/-!
# Verification of the MINT-AGE clustering pipeline core

Shallow embedding of `mintage_pipeline/mint_age.py`: the average-linkage
pre-clustering step (`AGE`), the adaptive outlier-threshold search
(`find_outlier_threshold_simple`), the mode-hunting orchestration (`MINT`),
and the pipeline assembler (`run_mint_age_pipeline`).

Modelling conventions:
* Real-valued quantities (dihedral angles, merge distances) are modelled as
  rationals `ℚ`, keeping every definition executable.
* The external numeric collaborators are parameters: the pairwise metric
  (`metric`, the source fixes scipy's `"euclidean"`), the linkage builder
  (`method`, the source's default is `scipy.cluster.hierarchy.average`), the
  mode-hunting collaborator (`nms`, the source's `new_multi_slink`), the
  Procrustes aligner and the plotting function.  All properties proved below
  hold for every instantiation (sometimes under explicit well-formedness
  hypotheses that the real collaborators satisfy, e.g. that a linkage over
  `n` observations has `n - 1` merge rows).
* `scipy.cluster.hierarchy.fcluster(Z, t, criterion="distance")` is modelled
  exactly: a flat cluster is a maximal linkage subtree whose internal merge
  distances (the "monocrit" = max distance over the subtree) are all `≤ t`;
  every original observation is labelled by the root node id of its maximal
  such subtree.
* Python exceptions are modelled by `Except String`, the string being the
  Python exception class name (e.g. `"ValueError"`).
* In-place mutation of `suite` objects (attaching the `clustering` dict) is
  modelled by state passing: functions return the updated suite list.
-/

namespace MintAge

/- Batteries marks the arithmetic kernels of `Rat` irreducible, which blocks
kernel evaluation (`decide`) of the executable model on concrete inputs; the
concrete witnesses below need them unfolded. -/
attribute [local semireducible] Rat.add Rat.mul Rat.sub Rat.inv

/-- One row of a scipy linkage matrix: the ids of the two merged clusters,
the merge distance (`Z[i, 2]`) and the size of the new cluster (`Z[i, 3]`). -/
structure LinkRow where
  a : ℕ
  b : ℕ
  dist : ℚ
  size : ℕ
deriving DecidableEq, Repr

/-- The merge-distance column `Z[:, 2]` of a linkage matrix. -/
def linkDists (Z : List LinkRow) : List ℚ := Z.map (·.dist)

/-- Member rows of every linkage node: ids `0 .. n-1` are the singleton
original observations, id `n + i` is the cluster created by merge row `i`
(union of the members of the two merged ids), as in scipy. -/
def clusterMembers (n : ℕ) (Z : List LinkRow) : List (List ℕ) :=
  Z.foldl (fun acc row => acc ++ [acc.getD row.a [] ++ acc.getD row.b []])
    ((List.range n).map (fun i => [i]))

/-- The "monocrit" of every linkage node for the `"distance"` criterion:
maximum merge distance inside the subtree rooted at that node (`⊥` for the
original observations), as computed by scipy's
`get_max_dist_for_each_cluster`. -/
def clusterMaxD (n : ℕ) (Z : List LinkRow) : List (WithBot ℚ) :=
  Z.foldl
    (fun acc row =>
      acc ++ [max ((row.dist : WithBot ℚ)) (max (acc.getD row.a ⊥) (acc.getD row.b ⊥))])
    ((List.range n).map (fun _ => (⊥ : WithBot ℚ)))

/-- `fcluster(Z, t, criterion="distance")`, label of one original row `r`:
the root id of the maximal subtree containing `r` whose monocrit is `≤ t`
(scipy's `cluster_monocrit` cut).  The number of observations is `len(Z)+1`,
as scipy infers it. -/
def fclusterLabel (Z : List LinkRow) (t : ℚ) (r : ℕ) : ℕ :=
  let n := Z.length + 1
  let mem := clusterMembers n Z
  let md := clusterMaxD n Z
  ((List.range (n + Z.length)).filter
      (fun id => decide (r ∈ mem.getD id []) &&
        decide (md.getD id ⊥ ≤ (t : WithBot ℚ)))).foldl max r

/-- `fcluster(Z, t, criterion="distance")`: flat cluster labels of the
original observations `0 .. len(Z)`. -/
def fclusterLabels (Z : List LinkRow) (t : ℚ) : List ℕ :=
  (List.range (Z.length + 1)).map (fclusterLabel Z t)

/-- One insertion into an insertion-ordered key list: a new key is appended,
an existing key keeps its position (Python `dict` / `Counter` semantics). -/
def keyInsert (acc : List ℕ) (c : ℕ) : List ℕ :=
  if c ∈ acc then acc else acc ++ [c]

/-- The distinct values of a list in order of first encounter: the key order
of Python's insertion-ordered `Counter(labs)` / `dict`. -/
def distinctFirst (l : List ℕ) : List ℕ :=
  l.foldl keyInsert []

/-- Body of the threshold scan (`find_outlier_threshold_simple`, lines
203-206): cut the tree at `d`, tally cluster sizes with `Counter`, sum the
sizes `< min_cluster_size` and divide by `data_count`. -/
def undersizedFrac (Z : List LinkRow) (d : ℚ) (data_count min_cluster_size : ℕ) : ℚ :=
  let labs := fclusterLabels Z d
  ((((distinctFirst labs).filter
        (fun c => decide (labs.count c < min_cluster_size))).map
      (fun c => labs.count c)).sum : ℚ) / (data_count : ℚ)

/-- The `for d in np.sort(distances)` loop of
`find_outlier_threshold_simple`: return the first candidate distance whose
undersized-point fraction is `≤ percentage`. -/
def thresholdScan (Z : List LinkRow) (percentage : ℚ) (data_count min_cluster_size : ℕ) :
    List ℚ → Option ℚ
  | [] => none
  | d :: rest =>
    if undersizedFrac Z d data_count min_cluster_size ≤ percentage then some d
    else thresholdScan Z percentage data_count min_cluster_size rest

/-- `find_outlier_threshold_simple(linkage_matrix, percentage, data_count,
min_cluster_size)` (lines 190-209).  `linkage_matrix[-1, 2] + 1.0` is an
`IndexError` on an empty matrix, hence the `Except`. -/
def find_outlier_threshold_simple (linkage_matrix : List LinkRow) (percentage : ℚ)
    (data_count min_cluster_size : ℕ) : Except String ℚ :=
  if percentage ≤ 0 then
    match linkage_matrix.getLast? with
    | none => .error "IndexError"
    | some row => .ok (row.dist + 1)
  else
    match thresholdScan linkage_matrix percentage data_count min_cluster_size
        (List.insertionSort (· ≤ ·) (linkDists linkage_matrix)) with
    | some d => .ok d
    | none =>
      match linkage_matrix.getLast? with
      | none => .error "IndexError"
      | some row => .ok (row.dist + 1)

/-- A pre-cluster label: `suites[i].clustering["precluster"]` is either the
zero-based position of the item's cluster in the cluster list or the string
`"outlier"`. -/
inductive PLabel where
  | idx : ℕ → PLabel
  | outlier : PLabel
deriving DecidableEq, Repr

/-- The `clustering` dict attached to a suite.  The core only ever writes
the keys `"precluster"` (in `AGE`) and `"mint_age_cluster"` (in `MINT`), so
the dict is modelled by one optional field per key. -/
structure ClusterMap where
  precluster : Option PLabel := none
  mint_age_cluster : Option ℕ := none
deriving DecidableEq, Repr

/-- A suite object as consumed by the core: its `_dihedral_angles` feature
vector (`none` = feature absent, item ineligible) and its `clustering`
attribute (`none` = attribute not yet attached, the `hasattr` distinction). -/
structure Suite where
  dihedral_angles : Option (List ℚ) := none
  clustering : Option ClusterMap := none
deriving DecidableEq, Repr, Inhabited

/-- The `"precluster"` label currently attached to a suite, if any. -/
def preLabel (s : Suite) : Option PLabel :=
  match s.clustering with
  | none => none
  | some c => c.precluster

/-- The `"mint_age_cluster"` label currently attached to a suite, if any. -/
def mintLabel (s : Suite) : Option ℕ :=
  match s.clustering with
  | none => none
  | some c => c.mint_age_cluster

/-- `if not hasattr(s, "clustering"): s.clustering = {}` followed by
`s.clustering["precluster"] = lab` (lines 139-141 / 143-145). -/
def applyPre (s : Suite) (lab : PLabel) : Suite :=
  { s with clustering := some { s.clustering.getD {} with precluster := some lab } }

/-- `if not hasattr(s, "clustering"): s.clustering = {}` followed by
`s.clustering["mint_age_cluster"] = lab` (lines 182-184). -/
def applyMint (s : Suite) (lab : ℕ) : Suite :=
  { s with clustering := some { s.clustering.getD {} with mint_age_cluster := some lab } }

/-- A sequence of in-place label writes `suites[i] := app suites[i] lab`,
performed left to right. -/
def writeAll {L : Type} (app : Suite → L → Suite) (st : List Suite)
    (ws : List (ℕ × L)) : List Suite :=
  ws.foldl (fun s w => s.set w.1 (app (s.getD w.1 default) w.2)) st

/-- The write list of a loop `for j, clust in enumerate(clusters): for s in
clust: write (s, mk (k + j))`: every member of the `j`-th cluster is written
the label made from the running index. -/
def idxWrites {L : Type} (mk : ℕ → L) : ℕ → List (List ℕ) → List (ℕ × L)
  | _, [] => []
  | k, c :: r => c.map (fun s => (s, mk k)) ++ idxWrites mk (k + 1) r

/-- `dihedral_data` (line 104): feature vectors of the eligible suites, in
order. -/
def eligibleData (suites : List Suite) : List (List ℚ) :=
  suites.filterMap (·.dihedral_angles)

/-- `suite_indices` (line 105): original positions of the eligible suites,
in order (the row-to-item correspondence of the feature matrix). -/
def suiteIndices (suites : List Suite) : List ℕ :=
  (List.range suites.length).filter
    (fun i => decide ((suites.getD i default).dihedral_angles ≠ none))

/-- `scipy.spatial.distance.pdist(data, metric)`: the condensed pairwise
distance vector, rows paired in lexicographic order `i < j`.  On an empty
observation list `np.array([...])` is not two-dimensional and scipy raises
`ValueError`. -/
def pdist (metric : List ℚ → List ℚ → ℚ) (data : List (List ℚ)) :
    Except String (List ℚ) :=
  if data.isEmpty then .error "ValueError"
  else
    .ok ((List.range data.length).flatMap
      (fun i =>
        (((List.range data.length).filter (fun j => decide (i < j))).map
          (fun j => metric (data.getD i []) (data.getD j [])))))

/-- Rows of the cut partition carrying flat-cluster label `c`:
`[i for i, lab in enumerate(cluster_labels) if lab == c]` (line 133). -/
def rowsOf (labs : List ℕ) (c : ℕ) : List ℕ :=
  (List.range labs.length).filter (fun r => decide (labs.getD r 0 = c))

/-- Original item identifiers of the cluster labelled `c`:
`[suite_indices[i] for i, lab in enumerate(cluster_labels) if lab == c]`
(line 133). -/
def membersOf (si labs : List ℕ) (c : ℕ) : List ℕ :=
  (rowsOf labs c).map (fun r => si.getD r 0)

/-- `cluster_list` (lines 130-134): one entry per distinct flat-cluster
label of size `≥ min_cluster_size`, in `Counter` key order (= order of
first encounter over the rows). -/
def clusterListOf (si labs : List ℕ) (min_cluster_size : ℕ) : List (List ℕ) :=
  ((distinctFirst labs).filter (fun c => decide (min_cluster_size ≤ labs.count c))).map
    (membersOf si labs)

/-- `outlier_clusters` (line 126): labels of the clusters smaller than
`min_cluster_size`, in `Counter` key order. -/
def outlierClusters (labs : List ℕ) (min_cluster_size : ℕ) : List ℕ :=
  (distinctFirst labs).filter (fun c => decide (labs.count c < min_cluster_size))

/-- `outlier_indices` (line 127): rows whose label is an outlier-cluster
label. -/
def outlierRows (labs : List ℕ) (min_cluster_size : ℕ) : List ℕ :=
  (List.range labs.length).filter
    (fun r => decide (labs.getD r 0 ∈ outlierClusters labs min_cluster_size))

/-- The outlier set in original item identifiers: the items labelled
`"outlier"` by lines 142-145 (`suites[suite_indices[sidx]]` for `sidx` in
`outlier_indices`). -/
def outlierIds (si labs : List ℕ) (min_cluster_size : ℕ) : List ℕ :=
  (outlierRows labs min_cluster_size).map (fun r => si.getD r 0)

/-- The label writes of `AGE` (lines 136-145): first every cluster member
gets its cluster's zero-based position, then every outlier gets
`"outlier"`. -/
def preWrites (cluster_list : List (List ℕ)) (outlier_ids : List ℕ) :
    List (ℕ × PLabel) :=
  idxWrites PLabel.idx 0 cluster_list ++ outlier_ids.map (fun i => (i, PLabel.outlier))

/-- `AGE(suites, method, outlier_percentage, min_cluster_size)` (lines
84-147).  The pairwise metric and the linkage builder are collaborator
parameters (the source fixes `metric="euclidean"` and defaults
`method=average`).  Returns the cluster list and the relabelled suites, or
the uncaught exception. -/
def AGE (metric : List ℚ → List ℚ → ℚ) (suites : List Suite)
    (method : List ℚ → Except String (List LinkRow))
    (outlier_percentage : ℚ) (min_cluster_size : ℕ) :
    Except String (List (List ℕ) × List Suite) :=
  let dihedral_data := eligibleData suites
  let suite_indices := suiteIndices suites
  match pdist metric dihedral_data with
  | .error e => .error e
  | .ok dist_vec =>
    match method dist_vec with
    | .error e => .error e
    | .ok linkage_matrix =>
      match find_outlier_threshold_simple linkage_matrix outlier_percentage
          dihedral_data.length min_cluster_size with
      | .error e => .error e
      | .ok threshold =>
        let cluster_labels := fclusterLabels linkage_matrix threshold
        let cluster_list := clusterListOf suite_indices cluster_labels min_cluster_size
        let out_ids := outlierIds suite_indices cluster_labels min_cluster_size
        .ok (cluster_list, writeAll applyPre suites (preWrites cluster_list out_ids))

/-- The signature of the external mode-hunting collaborator
`new_multi_slink(scale, data, cluster_list, outlier_list)`: it receives the
gathered feature rows of one pre-cluster (`None`-valued rows can only arise
from ineligible items, which `AGE` never emits) and returns sub-clusters
and noise as local row indices. -/
def NmsFn : Type :=
  ℕ → List (Option (List ℚ)) → List (List ℕ) → List ℕ → List (List ℕ) × List ℕ

/-- `cluster_data` (line 161): the feature vectors of one cluster-list
entry, gathered through the entry's own identifier list. -/
def gatherData (suites : List Suite) (e : List ℕ) : List (Option (List ℚ)) :=
  e.map (fun i => (suites.getD i default).dihedral_angles)

/-- The sub-clusters returned by the collaborator for one entry (lines
168-173): `new_multi_slink(scale=12000, data, [list(range(len(data)))],
[])`, first component. -/
def entrySubs (suites : List Suite) (nms : NmsFn) (e : List ℕ) : List (List ℕ) :=
  (nms 12000 (gatherData suites e) [List.range (gatherData suites e).length] []).1

/-- The noise indices returned by the collaborator for one entry, second
component. -/
def entryNoise (suites : List Suite) (nms : NmsFn) (e : List ℕ) : List ℕ :=
  (nms 12000 (gatherData suites e) [List.range (gatherData suites e).length] []).2

/-- Contribution of one cluster-list entry to `refined_clusters` (lines
159-176): empty entries are skipped (`continue`), otherwise each
sub-cluster's local indices are mapped back through the entry's own
identifier list (`clust_indices[idx]`). -/
def entryRefined (suites : List Suite) (nms : NmsFn) (e : List ℕ) : List (List ℕ) :=
  if e = [] then []
  else (entrySubs suites nms e).map (fun sc => sc.map (fun idx => e.getD idx 0))

/-- `refined_clusters` accumulated over the cluster list, in order. -/
def MINTrefined (suites : List Suite) (nms : NmsFn) (cluster_list : List (List ℕ)) :
    List (List ℕ) :=
  cluster_list.flatMap (entryRefined suites nms)

/-- The final-label loop of `MINT` (lines 179-185): a global counter
`final_label` starting at `k`, incremented once per refined cluster; every
member of the current cluster is written the current counter value. -/
def mintLabelFold (st : List Suite) (k : ℕ) (refined : List (List ℕ)) :
    List Suite × ℕ :=
  refined.foldl
    (fun acc clust =>
      (clust.foldl
        (fun st2 sidx => st2.set sidx (applyMint (st2.getD sidx default) acc.2)) acc.1,
       acc.2 + 1))
    (st, k)

/-- `MINT(suites, cluster_list)` (lines 150-187), with the mode-hunting
collaborator as a parameter.  Returns `refined_clusters` and the relabelled
suites. -/
def MINT (suites : List Suite) (cluster_list : List (List ℕ)) (nms : NmsFn) :
    List (List ℕ) × List Suite :=
  let refined := MINTrefined suites nms cluster_list
  (refined, (mintLabelFold suites 0 refined).1)

/-- `run_mint_age_pipeline` (lines 212-266) from the parsed suites onward:
Procrustes alignment (collaborator, cache policy abstracted), `AGE`,
`MINT`, optional plotting (fallible collaborator), then persistence of the
final suites.  The boolean records whether the terminal artifact
(`mint_age_final_suites.pickle`) was written; the plotting call precedes the
dump and is not guarded by any handler, so an uncaught exception anywhere
aborts the run with no terminal artifact. -/
def run_mint_age_pipeline (parsed : List Suite)
    (procrustesFn : List Suite → List Suite)
    (metric : List ℚ → List ℚ → ℚ)
    (method : List ℚ → Except String (List LinkRow))
    (nms : NmsFn)
    (plotFn : List Suite → List (List ℕ) → Except String Unit)
    (min_cluster_size : ℕ) (outlier_percentage : ℚ) (plot : Bool) :
    Except String (List Suite) × Bool :=
  let suites1 := procrustesFn parsed
  match AGE metric suites1 method outlier_percentage min_cluster_size with
  | .error e => (.error e, false)
  | .ok (cluster_list, suites2) =>
    match MINT suites2 cluster_list nms with
    | (refined, suites3) =>
      if plot then
        match plotFn suites3 refined with
        | .error e => (.error e, false)
        | .ok _ => (.ok suites3, true)
      else (.ok suites3, true)

/-! ## The threshold scan: first-match semantics (claims C1, C5) -/

theorem thresholdScan_eq_none_iff (Z : List LinkRow) (p : ℚ) (dc m : ℕ)
    (l : List ℚ) :
    thresholdScan Z p dc m l = none ↔
      ∀ d ∈ l, ¬ undersizedFrac Z d dc m ≤ p := by
  induction l with
  | nil => simp [thresholdScan]
  | cons a l ih =>
    by_cases ha : undersizedFrac Z a dc m ≤ p
    · simp [thresholdScan, ha]
    · simp only [thresholdScan, if_neg ha, ih, List.mem_cons, not_le]
      constructor
      · rintro hl d (rfl | hd)
        · exact not_le.mp ha
        · exact hl d hd
      · intro hl d hd
        exact hl d (Or.inr hd)

theorem thresholdScan_sorted_some (Z : List LinkRow) (p : ℚ) (dc m : ℕ)
    {l : List ℚ} (hs : l.Sorted (· ≤ ·)) {d : ℚ}
    (h : thresholdScan Z p dc m l = some d) :
    d ∈ l ∧ undersizedFrac Z d dc m ≤ p ∧
      ∀ x ∈ l, undersizedFrac Z x dc m ≤ p → d ≤ x := by
  induction l with
  | nil => simp [thresholdScan] at h
  | cons a l ih =>
    by_cases ha : undersizedFrac Z a dc m ≤ p
    · simp only [thresholdScan, if_pos ha, Option.some.injEq] at h
      subst h
      refine ⟨List.mem_cons_self _ _, ha, ?_⟩
      intro x hx _
      rcases List.mem_cons.mp hx with hx | hx
      · exact le_of_eq hx.symm
      · exact List.rel_of_sorted_cons hs x hx
    · simp only [thresholdScan, if_neg ha] at h
      obtain ⟨hmem, hfrac, hmin⟩ := ih hs.of_cons h
      refine ⟨List.mem_cons_of_mem _ hmem, hfrac, ?_⟩
      intro x hx hxle
      rcases List.mem_cons.mp hx with hx | hx
      · exact absurd (hx ▸ hxle) ha
      · exact hmin x hx hxle

theorem sorted_mem_le_getLast? {l : List ℚ} (hs : l.Sorted (· ≤ ·)) {b : ℚ}
    (hb : l.getLast? = some b) {a : ℚ} (ha : a ∈ l) : a ≤ b := by
  induction l with
  | nil => cases ha
  | cons x l ih =>
    cases l with
    | nil =>
      simp only [List.getLast?_singleton, Option.some.injEq] at hb
      simp only [List.mem_singleton] at ha
      exact le_of_eq (ha.trans hb)
    | cons y t =>
      rw [List.getLast?_cons_cons] at hb
      rcases List.mem_cons.mp ha with hax | hax
      · subst hax
        have hbmem : b ∈ y :: t := by
          have := List.mem_getLast?_eq_getLast
            (show b ∈ (y :: t).getLast? by simp [hb])
          obtain ⟨hne, hbe⟩ := this
          exact hbe ▸ List.getLast_mem hne
        exact List.rel_of_sorted_cons hs b hbmem
      · exact ih hs.of_cons hb hax

/-- C1: for every linkage structure, target percentage `p ∈ (0, 1]`, point
count and minimum cluster size, whenever some candidate merge distance
satisfies the undersized-fraction bound, the threshold selector returns a
merge distance that satisfies the bound and is the smallest such candidate —
the first match of the ascending scan. -/
theorem find_outlier_threshold_first_ascending_match
    (Z : List LinkRow) (p : ℚ) (dc m : ℕ)
    (hp0 : 0 < p) (hp1 : p ≤ 1) (hdc : 0 < dc)
    (hex : ∃ d ∈ linkDists Z, undersizedFrac Z d dc m ≤ p) :
    ∃ d, find_outlier_threshold_simple Z p dc m = .ok d ∧
      d ∈ linkDists Z ∧ undersizedFrac Z d dc m ≤ p ∧
      ∀ d' ∈ linkDists Z, undersizedFrac Z d' dc m ≤ p → d ≤ d' := by
  have hnp : ¬ p ≤ 0 := not_le.mpr hp0
  rw [find_outlier_threshold_simple, if_neg hnp]
  set sl := List.insertionSort (· ≤ ·) (linkDists Z) with hsl
  have hmem : ∀ x : ℚ, x ∈ sl ↔ x ∈ linkDists Z := fun x => List.mem_insertionSort _
  cases hscan : thresholdScan Z p dc m sl with
  | none =>
    exfalso
    obtain ⟨d, hd, hdle⟩ := hex
    exact ((thresholdScan_eq_none_iff Z p dc m sl).mp hscan) d ((hmem d).mpr hd) hdle
  | some d =>
    obtain ⟨hdm, hdf, hdmin⟩ :=
      thresholdScan_sorted_some Z p dc m (List.sorted_insertionSort _ _) hscan
    exact ⟨d, rfl, (hmem d).mp hdm, hdf,
      fun d' hd' hle => hdmin d' ((hmem d').mpr hd') hle⟩

/-- C5: for every nonempty linkage structure with (monotone) non-decreasing
merge distances, if `p ≤ 0` or no candidate merge distance satisfies the
undersized-fraction bound, the threshold selector successfully returns a
distance strictly greater than every merge distance (the coarsest-cut
sentinel `Z[-1, 2] + 1.0`) rather than an error. -/
theorem find_outlier_threshold_sentinel
    (Z : List LinkRow) (p : ℚ) (dc m : ℕ)
    (hZ : Z ≠ [])
    (hmono : (linkDists Z).Sorted (· ≤ ·))
    (h : p ≤ 0 ∨ ∀ d ∈ linkDists Z, ¬ undersizedFrac Z d dc m ≤ p) :
    ∃ r, find_outlier_threshold_simple Z p dc m = .ok r ∧
      ∀ d ∈ linkDists Z, d < r := by
  have hlast : Z.getLast? = some (Z.getLast hZ) := List.getLast?_eq_getLast Z hZ
  have hldist : (linkDists Z).getLast? = some (Z.getLast hZ).dist := by
    rw [linkDists, List.getLast?_map, hlast, Option.map_some']
  have hbound : ∀ d ∈ linkDists Z, d < (Z.getLast hZ).dist + 1 := by
    intro d hd
    have := sorted_mem_le_getLast? hmono hldist hd
    linarith
  by_cases hp : p ≤ 0
  · exact ⟨(Z.getLast hZ).dist + 1, by
      rw [find_outlier_threshold_simple, if_pos hp, hlast], hbound⟩
  · have hall : ∀ d ∈ linkDists Z, ¬ undersizedFrac Z d dc m ≤ p := h.resolve_left hp
    have hscan : thresholdScan Z p dc m
        (List.insertionSort (· ≤ ·) (linkDists Z)) = none := by
      rw [thresholdScan_eq_none_iff]
      intro d hd
      exact hall d (List.mem_insertionSort _ |>.mp hd)
    exact ⟨(Z.getLast hZ).dist + 1, by
      rw [find_outlier_threshold_simple, if_neg hp, hscan, hlast], hbound⟩

theorem find_outlier_threshold_first_ascending_match_witness :
    (0 < (1/2 : ℚ) ∧ (1/2 : ℚ) ≤ 1 ∧ 0 < 3 ∧
      ∃ d ∈ linkDists [⟨0, 1, 1, 2⟩, ⟨3, 2, 2, 3⟩],
        undersizedFrac [⟨0, 1, 1, 2⟩, ⟨3, 2, 2, 3⟩] d 3 2 ≤ 1/2) ∧
    ∃ d, find_outlier_threshold_simple [⟨0, 1, 1, 2⟩, ⟨3, 2, 2, 3⟩] (1/2) 3 2 = .ok d ∧
      d ∈ linkDists [⟨0, 1, 1, 2⟩, ⟨3, 2, 2, 3⟩] ∧
      undersizedFrac [⟨0, 1, 1, 2⟩, ⟨3, 2, 2, 3⟩] d 3 2 ≤ 1/2 ∧
      ∀ d' ∈ linkDists [⟨0, 1, 1, 2⟩, ⟨3, 2, 2, 3⟩],
        undersizedFrac [⟨0, 1, 1, 2⟩, ⟨3, 2, 2, 3⟩] d' 3 2 ≤ 1/2 → d ≤ d' :=
  ⟨⟨by norm_num, by norm_num, by norm_num, by decide⟩,
    find_outlier_threshold_first_ascending_match _ _ _ _
      (by norm_num) (by norm_num) (by norm_num) (by decide)⟩

theorem find_outlier_threshold_sentinel_witness :
    (([⟨0, 1, 1, 2⟩, ⟨3, 2, 2, 3⟩] : List LinkRow) ≠ [] ∧
      (linkDists [⟨0, 1, 1, 2⟩, ⟨3, 2, 2, 3⟩]).Sorted (· ≤ ·) ∧
      ((0 : ℚ) ≤ 0 ∨ ∀ d ∈ linkDists [⟨0, 1, 1, 2⟩, ⟨3, 2, 2, 3⟩],
        ¬ undersizedFrac [⟨0, 1, 1, 2⟩, ⟨3, 2, 2, 3⟩] d 3 2 ≤ 0)) ∧
    ∃ r, find_outlier_threshold_simple [⟨0, 1, 1, 2⟩, ⟨3, 2, 2, 3⟩] 0 3 2 = .ok r ∧
      ∀ d ∈ linkDists [⟨0, 1, 1, 2⟩, ⟨3, 2, 2, 3⟩], d < r :=
  ⟨⟨by decide, by decide, Or.inl le_rfl⟩,
    find_outlier_threshold_sentinel _ _ _ _ (by decide) (by decide) (Or.inl le_rfl)⟩

/-! ## `distinctFirst`: the insertion-ordered key list of `Counter` -/

theorem distinctFirst_append_singleton (l : List ℕ) (a : ℕ) :
    distinctFirst (l ++ [a]) = keyInsert (distinctFirst l) a := by
  simp [distinctFirst, List.foldl_append]

theorem mem_keyInsert (acc : List ℕ) (c x : ℕ) :
    x ∈ keyInsert acc c ↔ x ∈ acc ∨ x = c := by
  unfold keyInsert
  split <;> rename_i h
  · constructor
    · exact Or.inl
    · rintro (hx | rfl)
      · exact hx
      · exact h
  · simp

theorem mem_distinctFirst (l : List ℕ) (x : ℕ) :
    x ∈ distinctFirst l ↔ x ∈ l := by
  induction l using List.reverseRecOn with
  | nil => simp [distinctFirst]
  | append_singleton l a ih =>
    rw [distinctFirst_append_singleton, mem_keyInsert, ih]
    simp

theorem nodup_distinctFirst (l : List ℕ) : (distinctFirst l).Nodup := by
  induction l using List.reverseRecOn with
  | nil => simp [distinctFirst]
  | append_singleton l a ih =>
    rw [distinctFirst_append_singleton]
    unfold keyInsert
    split
    · exact ih
    · rename_i h
      simpa [List.nodup_append] using ⟨ih, h⟩

theorem sorted_indexOf_distinctFirst (l : List ℕ) :
    (distinctFirst l).Sorted (fun c c' => l.indexOf c < l.indexOf c') := by
  induction l using List.reverseRecOn with
  | nil => simp [distinctFirst]
  | append_singleton l a ih =>
    rw [distinctFirst_append_singleton]
    have hmemD : ∀ x ∈ distinctFirst l, x ∈ l := fun x hx => (mem_distinctFirst l x).mp hx
    have hlift : (distinctFirst l).Sorted
        (fun c c' => (l ++ [a]).indexOf c < (l ++ [a]).indexOf c') := by
      refine List.Pairwise.imp_of_mem ?_ ih
      intro c c' hc hc' hlt
      rwa [List.indexOf_append_of_mem (hmemD c hc),
        List.indexOf_append_of_mem (hmemD c' hc')]
    unfold keyInsert
    split
    · exact hlift
    · rename_i ha
      have ha' : a ∉ l := fun h => ha ((mem_distinctFirst l a).mpr h)
      rw [List.Sorted, List.pairwise_append]
      refine ⟨hlift, List.pairwise_singleton _ _, ?_⟩
      intro c hc x hx
      rw [List.mem_singleton] at hx
      subst hx
      rw [List.indexOf_append_of_mem (hmemD c hc),
        List.indexOf_append_of_not_mem ha']
      exact lt_of_lt_of_le (List.indexOf_lt_length.mpr (hmemD c hc))
        (Nat.le_add_right _ _)

/-! ## Row-level structure of the cut partition -/

theorem nodup_getD_inj {l : List ℕ} (hl : l.Nodup) {r1 r2 : ℕ}
    (h1 : r1 < l.length) (h2 : r2 < l.length)
    (h : l.getD r1 0 = l.getD r2 0) : r1 = r2 := by
  rw [List.getD_eq_getElem l 0 h1, List.getD_eq_getElem l 0 h2] at h
  exact (List.Nodup.getElem_inj_iff hl).mp h

theorem getD_mem_of_lt {l : List ℕ} {r : ℕ} (h : r < l.length) :
    l.getD r 0 ∈ l := by
  rw [List.getD_eq_getElem l 0 h]
  exact List.getElem_mem h

theorem mem_suiteIndices (suites : List Suite) (i : ℕ) :
    i ∈ suiteIndices suites ↔
      i < suites.length ∧ (suites.getD i default).dihedral_angles ≠ none := by
  simp [suiteIndices, List.mem_filter]

theorem nodup_suiteIndices (suites : List Suite) : (suiteIndices suites).Nodup :=
  (List.nodup_range _).filter _

theorem length_fclusterLabels (Z : List LinkRow) (t : ℚ) :
    (fclusterLabels Z t).length = Z.length + 1 := by
  simp [fclusterLabels]

theorem mem_rowsOf (labs : List ℕ) (c r : ℕ) :
    r ∈ rowsOf labs c ↔ r < labs.length ∧ labs.getD r 0 = c := by
  simp [rowsOf, List.mem_filter]

theorem nodup_rowsOf (labs : List ℕ) (c : ℕ) : (rowsOf labs c).Nodup :=
  (List.nodup_range _).filter _

theorem mem_membersOf (si labs : List ℕ) (c i : ℕ) :
    i ∈ membersOf si labs c ↔
      ∃ r, r < labs.length ∧ labs.getD r 0 = c ∧ si.getD r 0 = i := by
  simp only [membersOf, List.mem_map, mem_rowsOf]
  constructor
  · rintro ⟨r, ⟨hr, hc⟩, rfl⟩
    exact ⟨r, hr, hc, rfl⟩
  · rintro ⟨r, hr, hc, rfl⟩
    exact ⟨r, ⟨hr, hc⟩, rfl⟩

theorem mem_outlierClusters (labs : List ℕ) (m c : ℕ) :
    c ∈ outlierClusters labs m ↔ c ∈ labs ∧ labs.count c < m := by
  simp [outlierClusters, List.mem_filter, mem_distinctFirst]

theorem mem_flatten_clusterListOf (si labs : List ℕ) (m i : ℕ) :
    i ∈ (clusterListOf si labs m).flatten ↔
      ∃ r, r < labs.length ∧ si.getD r 0 = i ∧ m ≤ labs.count (labs.getD r 0) := by
  simp only [clusterListOf, List.mem_flatten, List.mem_map, List.mem_filter,
    mem_distinctFirst, decide_eq_true_eq]
  constructor
  · rintro ⟨entry, ⟨c, ⟨hcl, hcount⟩, rfl⟩, hi⟩
    obtain ⟨r, hr, hlab, hsi⟩ := (mem_membersOf si labs c i).mp hi
    exact ⟨r, hr, hsi, hlab ▸ hcount⟩
  · rintro ⟨r, hr, hsi, hcount⟩
    refine ⟨membersOf si labs (labs.getD r 0),
      ⟨labs.getD r 0, ⟨getD_mem_of_lt hr, hcount⟩, rfl⟩, ?_⟩
    exact (mem_membersOf si labs _ i).mpr ⟨r, hr, rfl, hsi⟩

theorem mem_outlierIds (si labs : List ℕ) (m i : ℕ) :
    i ∈ outlierIds si labs m ↔
      ∃ r, r < labs.length ∧ si.getD r 0 = i ∧ labs.count (labs.getD r 0) < m := by
  simp only [outlierIds, outlierRows, List.mem_map, List.mem_filter,
    List.mem_range, decide_eq_true_eq]
  constructor
  · rintro ⟨r, ⟨hr, hout⟩, rfl⟩
    obtain ⟨-, hcount⟩ := (mem_outlierClusters labs m _).mp hout
    exact ⟨r, hr, rfl, hcount⟩
  · rintro ⟨r, hr, rfl, hcount⟩
    exact ⟨r, ⟨hr, (mem_outlierClusters labs m _).mpr
      ⟨getD_mem_of_lt hr, hcount⟩⟩, rfl⟩

theorem count_pos_of_lt {labs : List ℕ} {r : ℕ} (hr : r < labs.length) :
    0 < labs.count (labs.getD r 0) :=
  List.count_pos_iff.mpr (getD_mem_of_lt hr)

/-! ## Label writes: generic lemmas about `writeAll` and `idxWrites` -/

theorem getD_eq_getD {α : Type} {l : List α} {i : ℕ} (h : i < l.length) (d1 d2 : α) :
    l.getD i d1 = l.getD i d2 := by
  rw [List.getD_eq_getElem l d1 h, List.getD_eq_getElem l d2 h]

theorem set_getD_self {α : Type} (l : List α) (i : ℕ) (d : α) :
    l.set i (l.getD i d) = l := by
  induction l generalizing i with
  | nil => rfl
  | cons a t ih =>
    cases i with
    | zero => rfl
    | succ j => simpa [List.set, List.getD_cons_succ] using ih j

theorem writeAll_length {L : Type} (app : Suite → L → Suite) (st : List Suite)
    (ws : List (ℕ × L)) : (writeAll app st ws).length = st.length := by
  induction ws generalizing st with
  | nil => rfl
  | cons w ws ih => simp [writeAll, List.foldl_cons] at ih ⊢; rw [ih, List.length_set]

theorem writeAll_getD_not_mem {L : Type} (app : Suite → L → Suite)
    {st : List Suite} {ws : List (ℕ × L)} {i : ℕ}
    (h : i ∉ ws.map Prod.fst) (d : Suite) :
    (writeAll app st ws).getD i d = st.getD i d := by
  induction ws generalizing st with
  | nil => rfl
  | cons w ws ih =>
    simp only [List.map_cons, List.mem_cons, not_or] at h
    have hne : w.1 ≠ i := Ne.symm h.1
    show (writeAll app (st.set w.1 _) ws).getD i d = st.getD i d
    rw [ih h.2, List.getD_eq_getElem?_getD, List.getElem?_set_ne hne,
      ← List.getD_eq_getElem?_getD]

theorem writeAll_getD_mem {L : Type} (app : Suite → L → Suite)
    {st : List Suite} {ws : List (ℕ × L)} {i : ℕ} {lab : L}
    (hnd : (ws.map Prod.fst).Nodup) (hmem : (i, lab) ∈ ws) (hi : i < st.length)
    (d : Suite) :
    (writeAll app st ws).getD i d = app (st.getD i d) lab := by
  induction ws generalizing st with
  | nil => cases hmem
  | cons w ws ih =>
    simp only [List.map_cons, List.nodup_cons] at hnd
    rcases List.mem_cons.mp hmem with heq | htail
    · have hw1 : w.1 = i := by rw [← heq]
      have hw2 : w.2 = lab := by rw [← heq]
      subst hw1 hw2
      have hni : w.1 ∉ ws.map Prod.fst := hnd.1
      show (writeAll app (st.set w.1 (app (st.getD w.1 default) w.2)) ws).getD w.1 d =
        app (st.getD w.1 d) w.2
      rw [writeAll_getD_not_mem app hni d, List.getD_eq_getElem?_getD,
        List.getElem?_set_self hi, Option.getD_some, getD_eq_getD hi d default]
    · have hne : w.1 ≠ i := by
        intro hw
        exact hnd.1 (hw ▸ (List.mem_map_of_mem Prod.fst htail))
      show (writeAll app (st.set w.1 _) ws).getD i d = app (st.getD i d) lab
      have hi' : i < (st.set w.1 (app (st.getD w.1 default) w.2)).length := by
        rwa [List.length_set]
      rw [ih hnd.2 htail hi', List.getD_eq_getElem?_getD,
        List.getElem?_set_ne hne, ← List.getD_eq_getElem?_getD]

theorem map_fst_idxWrites {L : Type} (mk : ℕ → L) (k : ℕ) (r : List (List ℕ)) :
    (idxWrites mk k r).map Prod.fst = r.flatten := by
  induction r generalizing k with
  | nil => rfl
  | cons c r ih =>
    have hmap : (Prod.fst ∘ fun s : ℕ => (s, mk k)) = id := rfl
    simp [idxWrites, List.map_append, List.map_map, ih, hmap]

theorem mem_idxWrites {L : Type} (mk : ℕ → L) (k : ℕ) (r : List (List ℕ))
    (s : ℕ) (lab : L) :
    (s, lab) ∈ idxWrites mk k r ↔
      ∃ j, j < r.length ∧ lab = mk (k + j) ∧ s ∈ r.getD j [] := by
  induction r generalizing k with
  | nil => simp [idxWrites]
  | cons c r ih =>
    simp only [idxWrites, List.mem_append, List.mem_map, ih]
    constructor
    · rintro (⟨x, hx, heq⟩ | ⟨j, hj, rfl, hs⟩)
      · obtain ⟨rfl, rfl⟩ := Prod.mk.injEq .. ▸ And.intro (congrArg Prod.fst heq)
          (congrArg Prod.snd heq)
        exact ⟨0, Nat.succ_pos _, by rw [Nat.add_zero], by simpa using hx⟩
      · exact ⟨j + 1, by simpa using hj, by congr 1; omega, by
          simpa [List.getD_cons_succ] using hs⟩
    · rintro ⟨j, hj, rfl, hs⟩
      cases j with
      | zero =>
        exact Or.inl ⟨s, by simpa using hs, by rw [Nat.add_zero]⟩
      | succ j =>
        refine Or.inr ⟨j, ?_, by congr 1; omega, by
          simpa [List.getD_cons_succ] using hs⟩
        simpa using hj

theorem writeAll_append {L : Type} (app : Suite → L → Suite) (st : List Suite)
    (w1 w2 : List (ℕ × L)) :
    writeAll app st (w1 ++ w2) = writeAll app (writeAll app st w1) w2 :=
  List.foldl_append _ _ _ _

theorem foldl_set_eq_writeAll {L : Type} (app : Suite → L → Suite) (st : List Suite)
    (c : List ℕ) (lab : L) :
    c.foldl (fun st2 sidx => st2.set sidx (app (st2.getD sidx default) lab)) st =
      writeAll app st (c.map (fun s => (s, lab))) := by
  induction c generalizing st with
  | nil => rfl
  | cons s c ih => simp only [List.foldl_cons, List.map_cons, writeAll] at ih ⊢; rw [ih]

theorem mintLabelFold_eq (st : List Suite) (k : ℕ) (refined : List (List ℕ)) :
    mintLabelFold st k refined =
      (writeAll applyMint st (idxWrites id k refined), k + refined.length) := by
  induction refined generalizing st k with
  | nil => simp [mintLabelFold, idxWrites, writeAll]
  | cons c r ih =>
    show mintLabelFold _ _ (c :: r) = _
    unfold mintLabelFold
    rw [List.foldl_cons]
    have : mintLabelFold
        (c.foldl (fun st2 sidx => st2.set sidx (applyMint (st2.getD sidx default) k)) st)
        (k + 1) r =
        (writeAll applyMint st (idxWrites id k (c :: r)), (k + 1) + r.length) := by
      rw [ih, foldl_set_eq_writeAll, idxWrites, ← writeAll_append]
      rfl
    unfold mintLabelFold at this
    rw [this]
    simp only [List.length_cons]
    congr 1
    omega

/-! ## Label writes preserve everything except the written key -/

theorem applyPre_dihedral (s : Suite) (lab : PLabel) :
    (applyPre s lab).dihedral_angles = s.dihedral_angles := rfl

theorem applyMint_dihedral (s : Suite) (lab : ℕ) :
    (applyMint s lab).dihedral_angles = s.dihedral_angles := rfl

theorem preLabel_applyPre (s : Suite) (lab : PLabel) :
    preLabel (applyPre s lab) = some lab := rfl

theorem mintLabel_applyMint (s : Suite) (lab : ℕ) :
    mintLabel (applyMint s lab) = some lab := rfl

theorem mintLabel_applyPre (s : Suite) (lab : PLabel) :
    mintLabel (applyPre s lab) = mintLabel s := by
  cases hc : s.clustering <;> simp [applyPre, mintLabel, hc]

theorem preLabel_applyMint (s : Suite) (lab : ℕ) :
    preLabel (applyMint s lab) = preLabel s := by
  cases hc : s.clustering <;> simp [applyMint, preLabel, hc]

theorem map_dihedral_writeAll {L : Type} (app : Suite → L → Suite)
    (happ : ∀ s lab, (app s lab).dihedral_angles = s.dihedral_angles)
    (st : List Suite) (ws : List (ℕ × L)) :
    (writeAll app st ws).map (·.dihedral_angles) = st.map (·.dihedral_angles) := by
  induction ws generalizing st with
  | nil => rfl
  | cons w ws ih =>
    show (writeAll app (st.set w.1 (app (st.getD w.1 default) w.2)) ws).map
        (·.dihedral_angles) = st.map (·.dihedral_angles)
    rw [ih]
    rw [List.map_set, happ]
    have : (st.getD w.1 default).dihedral_angles =
        (st.map (·.dihedral_angles)).getD w.1 (Suite.dihedral_angles default) :=
      (List.getD_map _ _ _).symm
    rw [this, set_getD_self]

theorem dihedral_getD_eq_of_map_eq {s1 s2 : List Suite}
    (h : s1.map (·.dihedral_angles) = s2.map (·.dihedral_angles)) (i : ℕ) :
    (s1.getD i default).dihedral_angles = (s2.getD i default).dihedral_angles := by
  have hlen : s1.length = s2.length := by
    have := congrArg List.length h
    simpa using this
  by_cases hi : i < s1.length
  · have h1 : (s1.map (·.dihedral_angles)).getD i (Suite.dihedral_angles default) =
        (s1.getD i default).dihedral_angles := List.getD_map _ _ _
    have h2 : (s2.map (·.dihedral_angles)).getD i (Suite.dihedral_angles default) =
        (s2.getD i default).dihedral_angles := List.getD_map _ _ _
    rw [← h1, ← h2, h]
  · rw [List.getD_eq_default _ _ (Nat.le_of_not_lt hi),
      List.getD_eq_default _ _ (hlen ▸ Nat.le_of_not_lt hi)]

theorem eligibleData_eq_of_map_eq {s1 s2 : List Suite}
    (h : s1.map (·.dihedral_angles) = s2.map (·.dihedral_angles)) :
    eligibleData s1 = eligibleData s2 := by
  have key : ∀ s : List Suite,
      eligibleData s = (s.map (·.dihedral_angles)).filterMap id := by
    intro s
    rw [eligibleData, List.filterMap_map]
    rfl
  rw [key, key, h]

theorem suiteIndices_eq_of_map_eq {s1 s2 : List Suite}
    (h : s1.map (·.dihedral_angles) = s2.map (·.dihedral_angles)) :
    suiteIndices s1 = suiteIndices s2 := by
  have hlen : s1.length = s2.length := by
    have := congrArg List.length h
    simpa using this
  rw [suiteIndices, suiteIndices, hlen]
  exact List.filter_congr (fun i _ => by rw [dihedral_getD_eq_of_map_eq h i])

/-! ## Unfolding one successful run of `AGE` -/

theorem AGE_eq_of_run (metric : List ℚ → List ℚ → ℚ) (suites : List Suite)
    (method : List ℚ → Except String (List LinkRow)) (p : ℚ) (m : ℕ)
    {dv : List ℚ} {Z : List LinkRow} {t : ℚ}
    (hpd : pdist metric (eligibleData suites) = .ok dv)
    (hm : method dv = .ok Z)
    (ht : find_outlier_threshold_simple Z p (eligibleData suites).length m = .ok t) :
    AGE metric suites method p m =
      .ok (clusterListOf (suiteIndices suites) (fclusterLabels Z t) m,
        writeAll applyPre suites
          (preWrites (clusterListOf (suiteIndices suites) (fclusterLabels Z t) m)
            (outlierIds (suiteIndices suites) (fclusterLabels Z t) m))) := by
  unfold AGE
  simp only [hpd, hm, ht]

/-! ## The cut partition splits the eligible rows -/

theorem mem_si_iff_getD (si : List ℕ) (i : ℕ) :
    i ∈ si ↔ ∃ r, r < si.length ∧ si.getD r 0 = i := by
  constructor
  · intro h
    obtain ⟨n, hn, he⟩ := List.mem_iff_getElem.mp h
    exact ⟨n, hn, by rw [List.getD_eq_getElem si 0 hn, he]⟩
  · rintro ⟨r, hr, rfl⟩
    exact getD_mem_of_lt hr

theorem partition_eligible (si labs : List ℕ) (m : ℕ)
    (hlen : labs.length = si.length) (hnd : si.Nodup) (i : ℕ) :
    ((i ∈ (clusterListOf si labs m).flatten ∨ i ∈ outlierIds si labs m) ↔ i ∈ si) ∧
      ¬(i ∈ (clusterListOf si labs m).flatten ∧ i ∈ outlierIds si labs m) := by
  constructor
  · constructor
    · rintro (h | h)
      · obtain ⟨r, hr, rfl, -⟩ := (mem_flatten_clusterListOf si labs m i).mp h
        exact getD_mem_of_lt (hlen ▸ hr)
      · obtain ⟨r, hr, rfl, -⟩ := (mem_outlierIds si labs m i).mp h
        exact getD_mem_of_lt (hlen ▸ hr)
    · intro hi
      obtain ⟨r, hr, rfl⟩ := (mem_si_iff_getD si i).mp hi
      have hr' : r < labs.length := hlen ▸ hr
      rcases le_or_lt m (labs.count (labs.getD r 0)) with hbig | hsmall
      · exact Or.inl ((mem_flatten_clusterListOf si labs m _).mpr ⟨r, hr', rfl, hbig⟩)
      · exact Or.inr ((mem_outlierIds si labs m _).mpr ⟨r, hr', rfl, hsmall⟩)
  · rintro ⟨h1, h2⟩
    obtain ⟨r1, hr1, hi1, hbig⟩ := (mem_flatten_clusterListOf si labs m i).mp h1
    obtain ⟨r2, hr2, hi2, hsmall⟩ := (mem_outlierIds si labs m i).mp h2
    have : r1 = r2 :=
      nodup_getD_inj hnd (hlen ▸ hr1) (hlen ▸ hr2) (hi1.trans hi2.symm)
    subst this
    exact absurd hbig (not_le.mpr hsmall)

theorem nodup_membersOf (si labs : List ℕ) (c : ℕ)
    (hlen : labs.length = si.length) (hnd : si.Nodup) :
    (membersOf si labs c).Nodup := by
  refine List.Nodup.map_on ?_ (nodup_rowsOf labs c)
  intro r1 h1 r2 h2 he
  obtain ⟨hr1, -⟩ := (mem_rowsOf labs c r1).mp h1
  obtain ⟨hr2, -⟩ := (mem_rowsOf labs c r2).mp h2
  exact nodup_getD_inj hnd (hlen ▸ hr1) (hlen ▸ hr2) he

theorem disjoint_membersOf (si labs : List ℕ) {c c' : ℕ}
    (hlen : labs.length = si.length) (hnd : si.Nodup) (hne : c ≠ c') :
    List.Disjoint (membersOf si labs c) (membersOf si labs c') := by
  intro i h1 h2
  obtain ⟨r1, hr1, hl1, hi1⟩ := (mem_membersOf si labs c i).mp h1
  obtain ⟨r2, hr2, hl2, hi2⟩ := (mem_membersOf si labs c' i).mp h2
  have : r1 = r2 :=
    nodup_getD_inj hnd (hlen ▸ hr1) (hlen ▸ hr2) (hi1.trans hi2.symm)
  subst this
  exact hne (hl1.symm.trans hl2)

theorem nodup_flatten_clusterListOf (si labs : List ℕ) (m : ℕ)
    (hlen : labs.length = si.length) (hnd : si.Nodup) :
    (clusterListOf si labs m).flatten.Nodup := by
  rw [List.nodup_flatten]
  constructor
  · intro l hl
    obtain ⟨c, -, rfl⟩ := List.mem_map.mp hl
    exact nodup_membersOf si labs c hlen hnd
  · rw [clusterListOf, List.pairwise_map]
    have hD : ((distinctFirst labs).filter
        (fun c => decide (m ≤ labs.count c))).Nodup :=
      (nodup_distinctFirst labs).filter _
    exact List.Pairwise.imp_of_mem
      (fun hc hc' hne => disjoint_membersOf si labs hlen hnd hne) hD

theorem nodup_outlierIds (si labs : List ℕ) (m : ℕ)
    (hlen : labs.length = si.length) (hnd : si.Nodup) :
    (outlierIds si labs m).Nodup := by
  refine List.Nodup.map_on ?_ ((List.nodup_range _).filter _)
  intro r1 h1 r2 h2 he
  have hr1 : r1 < labs.length := List.mem_range.mp (List.mem_of_mem_filter h1)
  have hr2 : r2 < labs.length := List.mem_range.mp (List.mem_of_mem_filter h2)
  exact nodup_getD_inj hnd (hlen ▸ hr1) (hlen ▸ hr2) he

theorem disjoint_flatten_outlierIds (si labs : List ℕ) (m : ℕ)
    (hlen : labs.length = si.length) (hnd : si.Nodup) :
    List.Disjoint (clusterListOf si labs m).flatten (outlierIds si labs m) :=
  fun i h1 h2 => (partition_eligible si labs m hlen hnd i).2 ⟨h1, h2⟩

theorem map_fst_preWrites (cl : List (List ℕ)) (outIds : List ℕ) :
    (preWrites cl outIds).map Prod.fst = cl.flatten ++ outIds := by
  rw [preWrites, List.map_append, map_fst_idxWrites, List.map_map]
  have : (Prod.fst ∘ fun i : ℕ => (i, PLabel.outlier)) = id := rfl
  rw [this, List.map_id]

theorem nodup_preWrites_fst (si labs : List ℕ) (m : ℕ)
    (hlen : labs.length = si.length) (hnd : si.Nodup) :
    ((preWrites (clusterListOf si labs m) (outlierIds si labs m)).map
      Prod.fst).Nodup := by
  rw [map_fst_preWrites, List.nodup_append]
  exact ⟨nodup_flatten_clusterListOf si labs m hlen hnd,
    nodup_outlierIds si labs m hlen hnd,
    disjoint_flatten_outlierIds si labs m hlen hnd⟩

/-! ## Claim theorems about `AGE` -/

/-- C2: for every successful run of `AGE` (with a linkage collaborator that
returns `n - 1` merge rows for `n` observations, as scipy does), the cluster
list and the outlier set partition exactly the eligible items — an item
identifier is eligible (in range with a present feature vector) iff it lies
in the flattened cluster list or in the outlier set, and never in both. -/
theorem AGE_partitions_eligible
    (metric : List ℚ → List ℚ → ℚ) (suites : List Suite)
    (method : List ℚ → Except String (List LinkRow)) (p : ℚ) (m : ℕ)
    {dv : List ℚ} {Z : List LinkRow} {t : ℚ} {cl : List (List ℕ)} {s' : List Suite}
    (hpd : pdist metric (eligibleData suites) = .ok dv)
    (hm : method dv = .ok Z)
    (ht : find_outlier_threshold_simple Z p (eligibleData suites).length m = .ok t)
    (hwf : Z.length + 1 = (suiteIndices suites).length)
    (hAGE : AGE metric suites method p m = .ok (cl, s')) :
    ∀ i, ((i ∈ cl.flatten ∨
          i ∈ outlierIds (suiteIndices suites) (fclusterLabels Z t) m) ↔
        (i < suites.length ∧ (suites.getD i default).dihedral_angles ≠ none)) ∧
      ¬(i ∈ cl.flatten ∧
          i ∈ outlierIds (suiteIndices suites) (fclusterLabels Z t) m) := by
  have hrun := AGE_eq_of_run metric suites method p m hpd hm ht
  rw [hAGE] at hrun
  have hcl : cl = clusterListOf (suiteIndices suites) (fclusterLabels Z t) m :=
    congrArg Prod.fst (Except.ok.inj hrun)
  subst hcl
  intro i
  have hlen : (fclusterLabels Z t).length = (suiteIndices suites).length := by
    rw [length_fclusterLabels]; exact hwf
  have h := partition_eligible (suiteIndices suites) (fclusterLabels Z t) m hlen
    (nodup_suiteIndices suites) i
  exact ⟨h.1.trans (mem_suiteIndices suites i), h.2⟩

/-- C6: for every successful run of `AGE` (well-formed linkage collaborator),
the cluster list is exactly the list of clusters of the cut partition with
size `≥ min_cluster_size`, enumerated in order of first encounter of the
distinct cluster ids over the rows (`distinctFirst` is nodup, has the same
members as the label list, and is sorted by first-occurrence position); each
such cluster appears as exactly one entry, and every cluster of size
`< min_cluster_size` sends all of its members to the outlier set and none
into the cluster list. -/
theorem AGE_cluster_list_entries
    (metric : List ℚ → List ℚ → ℚ) (suites : List Suite)
    (method : List ℚ → Except String (List LinkRow)) (p : ℚ) (m : ℕ)
    {dv : List ℚ} {Z : List LinkRow} {t : ℚ} {cl : List (List ℕ)} {s' : List Suite}
    (hpd : pdist metric (eligibleData suites) = .ok dv)
    (hm : method dv = .ok Z)
    (ht : find_outlier_threshold_simple Z p (eligibleData suites).length m = .ok t)
    (hwf : Z.length + 1 = (suiteIndices suites).length)
    (hAGE : AGE metric suites method p m = .ok (cl, s')) :
    cl = ((distinctFirst (fclusterLabels Z t)).filter
        (fun c => decide (m ≤ (fclusterLabels Z t).count c))).map
        (membersOf (suiteIndices suites) (fclusterLabels Z t)) ∧
    (distinctFirst (fclusterLabels Z t)).Nodup ∧
    (∀ c, c ∈ distinctFirst (fclusterLabels Z t) ↔ c ∈ fclusterLabels Z t) ∧
    (distinctFirst (fclusterLabels Z t)).Sorted
      (fun c c' => (fclusterLabels Z t).indexOf c < (fclusterLabels Z t).indexOf c') ∧
    (∀ c ∈ fclusterLabels Z t, m ≤ (fclusterLabels Z t).count c →
      ∃ j, j < cl.length ∧
        cl.getD j [] = membersOf (suiteIndices suites) (fclusterLabels Z t) c ∧
        ∀ j', j' < cl.length →
          cl.getD j' [] = membersOf (suiteIndices suites) (fclusterLabels Z t) c →
          j' = j) ∧
    (∀ c ∈ fclusterLabels Z t, (fclusterLabels Z t).count c < m →
      ∀ i ∈ membersOf (suiteIndices suites) (fclusterLabels Z t) c,
        i ∈ outlierIds (suiteIndices suites) (fclusterLabels Z t) m ∧
          i ∉ cl.flatten) := by
  have hrun := AGE_eq_of_run metric suites method p m hpd hm ht
  rw [hAGE] at hrun
  have hcl : cl = clusterListOf (suiteIndices suites) (fclusterLabels Z t) m :=
    congrArg Prod.fst (Except.ok.inj hrun)
  subst hcl
  set si := suiteIndices suites with hsi
  set labs := fclusterLabels Z t with hlabs
  have hlen : labs.length = si.length := by
    rw [hlabs, length_fclusterLabels]; exact hwf
  have hnd : si.Nodup := nodup_suiteIndices suites
  refine ⟨rfl, nodup_distinctFirst labs, fun c => mem_distinctFirst labs c,
    sorted_indexOf_distinctFirst labs, ?_, ?_⟩
  · intro c hc hbig
    have hcD : c ∈ (distinctFirst labs).filter
        (fun c => decide (m ≤ labs.count c)) :=
      List.mem_filter.mpr ⟨(mem_distinctFirst labs c).mpr hc, by
        simpa using hbig⟩
    have hmem : membersOf si labs c ∈ clusterListOf si labs m :=
      List.mem_map_of_mem _ hcD
    have hndcl : (clusterListOf si labs m).Nodup := by
      rw [clusterListOf]
      refine List.Nodup.map_on ?_ ((nodup_distinctFirst labs).filter _)
      intro c1 h1 c2 h2 he
      by_contra hne
      obtain ⟨r, hr, hgd⟩ := (mem_si_iff_getD labs c1).mp
        ((mem_distinctFirst labs c1).mp (List.mem_of_mem_filter h1))
      have hin : si.getD r 0 ∈ membersOf si labs c1 :=
        (mem_membersOf si labs c1 _).mpr ⟨r, hr, hgd, rfl⟩
      exact disjoint_membersOf si labs hlen hnd hne hin (he ▸ hin)
    obtain ⟨j, hj, hje⟩ := List.mem_iff_getElem.mp hmem
    refine ⟨j, hj, by rw [List.getD_eq_getElem _ [] hj, hje], ?_⟩
    intro j' hj' hje'
    rw [List.getD_eq_getElem _ [] hj'] at hje'
    exact (List.Nodup.getElem_inj_iff hndcl).mp (by rw [hje', hje])
  · intro c hc hsmall i hi
    obtain ⟨r, hr, hlab, hsid⟩ := (mem_membersOf si labs c i).mp hi
    have hout : i ∈ outlierIds si labs m :=
      (mem_outlierIds si labs m i).mpr ⟨r, hr, hsid, by rw [hlab]; exact hsmall⟩
    exact ⟨hout, fun hflat =>
      (partition_eligible si labs m hlen hnd i).2 ⟨hflat, hout⟩⟩

/-- C8: for every successful run of `AGE` (well-formed linkage
collaborator), the only change to the suite list is the `"precluster"`
label: the list length and every item's feature vector and
`"mint_age_cluster"` label are unchanged; an ineligible item is returned
exactly as it was; an eligible item is labelled with the zero-based position
of its cluster in the cluster list, or with the sentinel `"outlier"`, and
every eligible item does receive a label. -/
theorem AGE_label_frame
    (metric : List ℚ → List ℚ → ℚ) (suites : List Suite)
    (method : List ℚ → Except String (List LinkRow)) (p : ℚ) (m : ℕ)
    {dv : List ℚ} {Z : List LinkRow} {t : ℚ} {cl : List (List ℕ)} {s' : List Suite}
    (hpd : pdist metric (eligibleData suites) = .ok dv)
    (hm : method dv = .ok Z)
    (ht : find_outlier_threshold_simple Z p (eligibleData suites).length m = .ok t)
    (hwf : Z.length + 1 = (suiteIndices suites).length)
    (hAGE : AGE metric suites method p m = .ok (cl, s')) :
    s'.length = suites.length ∧
    ∀ i, i < suites.length →
      ((s'.getD i default).dihedral_angles = (suites.getD i default).dihedral_angles) ∧
      (mintLabel (s'.getD i default) = mintLabel (suites.getD i default)) ∧
      ((suites.getD i default).dihedral_angles = none →
        s'.getD i default = suites.getD i default) ∧
      (∀ j, j < cl.length → i ∈ cl.getD j [] →
        preLabel (s'.getD i default) = some (PLabel.idx j)) ∧
      (i ∈ outlierIds (suiteIndices suites) (fclusterLabels Z t) m →
        preLabel (s'.getD i default) = some PLabel.outlier) ∧
      ((suites.getD i default).dihedral_angles ≠ none →
        (preLabel (s'.getD i default)).isSome) := by
  have hrun := AGE_eq_of_run metric suites method p m hpd hm ht
  rw [hAGE] at hrun
  have hpair := Except.ok.inj hrun
  have hcl : cl = clusterListOf (suiteIndices suites) (fclusterLabels Z t) m :=
    congrArg Prod.fst hpair
  have hs' : s' = writeAll applyPre suites
      (preWrites (clusterListOf (suiteIndices suites) (fclusterLabels Z t) m)
        (outlierIds (suiteIndices suites) (fclusterLabels Z t) m)) :=
    congrArg Prod.snd hpair
  subst hcl
  subst hs'
  set si := suiteIndices suites with hsi
  set labs := fclusterLabels Z t with hlabs
  set cl := clusterListOf si labs m with hcldef
  set outIds := outlierIds si labs m with houtdef
  set ws := preWrites cl outIds with hws
  have hlen : labs.length = si.length := by
    rw [hlabs, length_fclusterLabels]; exact hwf
  have hnd : si.Nodup := nodup_suiteIndices suites
  have hndws : (ws.map Prod.fst).Nodup := nodup_preWrites_fst si labs m hlen hnd
  have hfst : ws.map Prod.fst = cl.flatten ++ outIds := map_fst_preWrites cl outIds
  have hsub : ∀ i, i ∈ ws.map Prod.fst → i ∈ si := by
    intro i hi
    rw [hfst] at hi
    exact (partition_eligible si labs m hlen hnd i).1.mp
      (List.mem_append.mp hi)
  refine ⟨writeAll_length _ _ _, ?_⟩
  intro i hilen
  have hdih : (writeAll applyPre suites ws |>.getD i default).dihedral_angles =
      (suites.getD i default).dihedral_angles :=
    dihedral_getD_eq_of_map_eq
      (map_dihedral_writeAll applyPre applyPre_dihedral suites ws) i
  refine ⟨hdih, ?_, ?_, ?_, ?_, ?_⟩
  · by_cases hmem : i ∈ ws.map Prod.fst
    · obtain ⟨w, hw, hwi⟩ := List.mem_map.mp hmem
      have : (i, w.2) ∈ ws := by
        have : w = (i, w.2) := Prod.ext hwi rfl
        rwa [← this]
      rw [writeAll_getD_mem applyPre hndws this hilen default,
        mintLabel_applyPre]
    · rw [writeAll_getD_not_mem applyPre hmem default]
  · intro hnone
    have hni : i ∉ ws.map Prod.fst := by
      intro hmem
      have := (mem_suiteIndices suites i).mp (hsub i hmem)
      exact this.2 hnone
    rw [writeAll_getD_not_mem applyPre hni default]
  · intro j hj hij
    have hwmem : (i, PLabel.idx j) ∈ ws := by
      rw [hws, preWrites]
      refine List.mem_append.mpr (Or.inl ?_)
      exact (mem_idxWrites PLabel.idx 0 cl i (PLabel.idx j)).mpr
        ⟨j, hj, by rw [Nat.zero_add], hij⟩
    rw [writeAll_getD_mem applyPre hndws hwmem hilen default, preLabel_applyPre]
  · intro hout
    have hwmem : (i, PLabel.outlier) ∈ ws := by
      rw [hws, preWrites]
      exact List.mem_append.mpr (Or.inr (List.mem_map_of_mem _ hout))
    rw [writeAll_getD_mem applyPre hndws hwmem hilen default, preLabel_applyPre]
  · intro hsome
    have hisi : i ∈ si := (mem_suiteIndices suites i).mpr ⟨hilen, hsome⟩
    rcases (partition_eligible si labs m hlen hnd i).1.mpr hisi with hflat | hout
    · obtain ⟨e, he, hie⟩ := List.mem_flatten.mp hflat
      obtain ⟨j, hj, hje⟩ := List.mem_iff_getElem.mp he
      have hij : i ∈ cl.getD j [] := by
        rw [List.getD_eq_getElem _ [] hj, hje]; exact hie
      have hwmem : (i, PLabel.idx j) ∈ ws := by
        rw [hws, preWrites]
        exact List.mem_append.mpr (Or.inl
          ((mem_idxWrites PLabel.idx 0 cl i (PLabel.idx j)).mpr
            ⟨j, hj, by rw [Nat.zero_add], hij⟩))
      rw [writeAll_getD_mem applyPre hndws hwmem hilen default, preLabel_applyPre]
      rfl
    · have hwmem : (i, PLabel.outlier) ∈ ws := by
        rw [hws, preWrites]
        exact List.mem_append.mpr (Or.inr (List.mem_map_of_mem _ hout))
      rw [writeAll_getD_mem applyPre hndws hwmem hilen default, preLabel_applyPre]
      rfl

/-- C10: `AGE` is idempotent and its threshold selection deterministic:
running `AGE` again on the suites returned by a successful run, with the
same collaborators and parameters, goes through the identical distance
vector, linkage and threshold (the same `d*`), and returns the identical
cluster list and identical outlier set. -/
theorem AGE_idempotent
    (metric : List ℚ → List ℚ → ℚ) (suites : List Suite)
    (method : List ℚ → Except String (List LinkRow)) (p : ℚ) (m : ℕ)
    {dv : List ℚ} {Z : List LinkRow} {t : ℚ} {cl : List (List ℕ)} {s' : List Suite}
    (hpd : pdist metric (eligibleData suites) = .ok dv)
    (hm : method dv = .ok Z)
    (ht : find_outlier_threshold_simple Z p (eligibleData suites).length m = .ok t)
    (hAGE : AGE metric suites method p m = .ok (cl, s')) :
    pdist metric (eligibleData s') = .ok dv ∧
    find_outlier_threshold_simple Z p (eligibleData s').length m = .ok t ∧
    (∃ s'', AGE metric s' method p m = .ok (cl, s'')) ∧
    outlierIds (suiteIndices s') (fclusterLabels Z t) m =
      outlierIds (suiteIndices suites) (fclusterLabels Z t) m := by
  have hrun := AGE_eq_of_run metric suites method p m hpd hm ht
  rw [hAGE] at hrun
  have hpair := Except.ok.inj hrun
  have hcl : cl = clusterListOf (suiteIndices suites) (fclusterLabels Z t) m :=
    congrArg Prod.fst hpair
  have hs' : s' = writeAll applyPre suites
      (preWrites (clusterListOf (suiteIndices suites) (fclusterLabels Z t) m)
        (outlierIds (suiteIndices suites) (fclusterLabels Z t) m)) :=
    congrArg Prod.snd hpair
  have hmapd : s'.map (·.dihedral_angles) = suites.map (·.dihedral_angles) := by
    rw [hs']
    exact map_dihedral_writeAll applyPre applyPre_dihedral _ _
  have hed : eligibleData s' = eligibleData suites := eligibleData_eq_of_map_eq hmapd
  have hsi : suiteIndices s' = suiteIndices suites := suiteIndices_eq_of_map_eq hmapd
  refine ⟨by rw [hed]; exact hpd, by rw [hed]; exact ht, ?_, by rw [hsi]⟩
  have hrun2 := AGE_eq_of_run metric s' method p m (by rw [hed]; exact hpd) hm
    (by rw [hed]; exact ht)
  rw [hsi, ← hcl] at hrun2
  exact ⟨_, hrun2⟩

/-! ## Concrete witness fixtures for the `AGE` theorems -/

/-- Four parsed suites: items 0, 2, 3 eligible (1-dimensional features
`0, 1, 10`), item 1 ineligible. -/
def witSuites : List Suite :=
  [⟨some [0], none⟩, ⟨none, none⟩, ⟨some [1], none⟩, ⟨some [10], none⟩]

/-- A concrete pluggable metric (L1) for the witnesses. -/
def witMetric : List ℚ → List ℚ → ℚ :=
  fun x y => ((x.zip y).map (fun q => |q.1 - q.2|)).sum

/-- The average-linkage result over the witness distance vector `[1, 10, 9]`:
merge rows 0 and 1 at distance 1 (node 3), then node 3 with row 2 at the
average distance `(10 + 9) / 2`.  Fails with scipy's `ValueError` on an
empty distance vector. -/
def witMethod : List ℚ → Except String (List LinkRow) := fun dv =>
  if dv = [] then .error "ValueError" else .ok [⟨0, 1, 1, 2⟩, ⟨3, 2, 19/2, 3⟩]

def witZ : List LinkRow := [⟨0, 1, 1, 2⟩, ⟨3, 2, 19/2, 3⟩]

def witCl : List (List ℕ) := [[0, 2]]

/-- The suites after the witness `AGE` run: items 0 and 2 pre-clustered as
cluster 0, item 3 an outlier, item 1 untouched. -/
def witLabeled : List Suite :=
  [⟨some [0], some ⟨some (PLabel.idx 0), none⟩⟩, ⟨none, none⟩,
   ⟨some [1], some ⟨some (PLabel.idx 0), none⟩⟩,
   ⟨some [10], some ⟨some PLabel.outlier, none⟩⟩]

theorem AGE_partitions_eligible_witness :
    (pdist witMetric (eligibleData witSuites) = .ok [1, 10, 9] ∧
      witMethod [1, 10, 9] = .ok witZ ∧
      find_outlier_threshold_simple witZ (2/5) (eligibleData witSuites).length 2 =
        .ok 1 ∧
      witZ.length + 1 = (suiteIndices witSuites).length ∧
      AGE witMetric witSuites witMethod (2/5) 2 = .ok (witCl, witLabeled)) ∧
    ∀ i, ((i ∈ witCl.flatten ∨
          i ∈ outlierIds (suiteIndices witSuites) (fclusterLabels witZ 1) 2) ↔
        (i < witSuites.length ∧ (witSuites.getD i default).dihedral_angles ≠ none)) ∧
      ¬(i ∈ witCl.flatten ∧
          i ∈ outlierIds (suiteIndices witSuites) (fclusterLabels witZ 1) 2) := by
  have h1 : pdist witMetric (eligibleData witSuites) = .ok [1, 10, 9] := rfl
  have h2 : witMethod [1, 10, 9] = .ok witZ := rfl
  have h3 : find_outlier_threshold_simple witZ (2/5)
      (eligibleData witSuites).length 2 = .ok 1 := rfl
  have h4 : witZ.length + 1 = (suiteIndices witSuites).length := by decide
  have h5 : AGE witMetric witSuites witMethod (2/5) 2 = .ok (witCl, witLabeled) :=
    rfl
  exact ⟨⟨h1, h2, h3, h4, h5⟩,
    AGE_partitions_eligible witMetric witSuites witMethod (2/5) 2 h1 h2 h3 h4 h5⟩

theorem AGE_cluster_list_entries_witness :
    (pdist witMetric (eligibleData witSuites) = .ok [1, 10, 9] ∧
      witMethod [1, 10, 9] = .ok witZ ∧
      find_outlier_threshold_simple witZ (2/5) (eligibleData witSuites).length 2 =
        .ok 1 ∧
      witZ.length + 1 = (suiteIndices witSuites).length ∧
      AGE witMetric witSuites witMethod (2/5) 2 = .ok (witCl, witLabeled)) ∧
    (witCl = ((distinctFirst (fclusterLabels witZ 1)).filter
        (fun c => decide (2 ≤ (fclusterLabels witZ 1).count c))).map
        (membersOf (suiteIndices witSuites) (fclusterLabels witZ 1)) ∧
      (distinctFirst (fclusterLabels witZ 1)).Nodup ∧
      (∀ c, c ∈ distinctFirst (fclusterLabels witZ 1) ↔ c ∈ fclusterLabels witZ 1) ∧
      (distinctFirst (fclusterLabels witZ 1)).Sorted
        (fun c c' => (fclusterLabels witZ 1).indexOf c <
          (fclusterLabels witZ 1).indexOf c') ∧
      (∀ c ∈ fclusterLabels witZ 1, 2 ≤ (fclusterLabels witZ 1).count c →
        ∃ j, j < witCl.length ∧
          witCl.getD j [] = membersOf (suiteIndices witSuites) (fclusterLabels witZ 1) c ∧
          ∀ j', j' < witCl.length →
            witCl.getD j' [] =
              membersOf (suiteIndices witSuites) (fclusterLabels witZ 1) c →
            j' = j) ∧
      (∀ c ∈ fclusterLabels witZ 1, (fclusterLabels witZ 1).count c < 2 →
        ∀ i ∈ membersOf (suiteIndices witSuites) (fclusterLabels witZ 1) c,
          i ∈ outlierIds (suiteIndices witSuites) (fclusterLabels witZ 1) 2 ∧
            i ∉ witCl.flatten)) := by
  have h1 : pdist witMetric (eligibleData witSuites) = .ok [1, 10, 9] := rfl
  have h2 : witMethod [1, 10, 9] = .ok witZ := rfl
  have h3 : find_outlier_threshold_simple witZ (2/5)
      (eligibleData witSuites).length 2 = .ok 1 := rfl
  have h4 : witZ.length + 1 = (suiteIndices witSuites).length := by decide
  have h5 : AGE witMetric witSuites witMethod (2/5) 2 = .ok (witCl, witLabeled) :=
    rfl
  exact ⟨⟨h1, h2, h3, h4, h5⟩,
    AGE_cluster_list_entries witMetric witSuites witMethod (2/5) 2 h1 h2 h3 h4 h5⟩

theorem AGE_label_frame_witness :
    (pdist witMetric (eligibleData witSuites) = .ok [1, 10, 9] ∧
      witMethod [1, 10, 9] = .ok witZ ∧
      find_outlier_threshold_simple witZ (2/5) (eligibleData witSuites).length 2 =
        .ok 1 ∧
      witZ.length + 1 = (suiteIndices witSuites).length ∧
      AGE witMetric witSuites witMethod (2/5) 2 = .ok (witCl, witLabeled)) ∧
    (witLabeled.length = witSuites.length ∧
    ∀ i, i < witSuites.length →
      ((witLabeled.getD i default).dihedral_angles =
        (witSuites.getD i default).dihedral_angles) ∧
      (mintLabel (witLabeled.getD i default) = mintLabel (witSuites.getD i default)) ∧
      ((witSuites.getD i default).dihedral_angles = none →
        witLabeled.getD i default = witSuites.getD i default) ∧
      (∀ j, j < witCl.length → i ∈ witCl.getD j [] →
        preLabel (witLabeled.getD i default) = some (PLabel.idx j)) ∧
      (i ∈ outlierIds (suiteIndices witSuites) (fclusterLabels witZ 1) 2 →
        preLabel (witLabeled.getD i default) = some PLabel.outlier) ∧
      ((witSuites.getD i default).dihedral_angles ≠ none →
        (preLabel (witLabeled.getD i default)).isSome)) := by
  have h1 : pdist witMetric (eligibleData witSuites) = .ok [1, 10, 9] := rfl
  have h2 : witMethod [1, 10, 9] = .ok witZ := rfl
  have h3 : find_outlier_threshold_simple witZ (2/5)
      (eligibleData witSuites).length 2 = .ok 1 := rfl
  have h4 : witZ.length + 1 = (suiteIndices witSuites).length := by decide
  have h5 : AGE witMetric witSuites witMethod (2/5) 2 = .ok (witCl, witLabeled) :=
    rfl
  exact ⟨⟨h1, h2, h3, h4, h5⟩,
    AGE_label_frame witMetric witSuites witMethod (2/5) 2 h1 h2 h3 h4 h5⟩

theorem AGE_idempotent_witness :
    (pdist witMetric (eligibleData witSuites) = .ok [1, 10, 9] ∧
      witMethod [1, 10, 9] = .ok witZ ∧
      find_outlier_threshold_simple witZ (2/5) (eligibleData witSuites).length 2 =
        .ok 1 ∧
      AGE witMetric witSuites witMethod (2/5) 2 = .ok (witCl, witLabeled)) ∧
    (pdist witMetric (eligibleData witLabeled) = .ok [1, 10, 9] ∧
    find_outlier_threshold_simple witZ (2/5) (eligibleData witLabeled).length 2 =
      .ok 1 ∧
    (∃ s'', AGE witMetric witLabeled witMethod (2/5) 2 = .ok (witCl, s'')) ∧
    outlierIds (suiteIndices witLabeled) (fclusterLabels witZ 1) 2 =
      outlierIds (suiteIndices witSuites) (fclusterLabels witZ 1) 2) := by
  have h1 : pdist witMetric (eligibleData witSuites) = .ok [1, 10, 9] := rfl
  have h2 : witMethod [1, 10, 9] = .ok witZ := rfl
  have h3 : find_outlier_threshold_simple witZ (2/5)
      (eligibleData witSuites).length 2 = .ok 1 := rfl
  have h5 : AGE witMetric witSuites witMethod (2/5) 2 = .ok (witCl, witLabeled) :=
    rfl
  exact ⟨⟨h1, h2, h3, h5⟩,
    AGE_idempotent witMetric witSuites witMethod (2/5) 2 h1 h2 h3 h5⟩

/-! ## Claim theorems about `MINT` -/

theorem nodup_flatten_of_pairwise {r : List (List ℕ)}
    (hdisj : r.Pairwise List.Disjoint) (hnod : ∀ c ∈ r, c.Nodup) :
    r.flatten.Nodup :=
  List.nodup_flatten.mpr ⟨hnod, hdisj⟩

/-- C4: for every run of `MINT` whose refined sub-clusters are pairwise
disjoint, duplicate-free and in range (the mode-hunting collaborator returns
sub-partitions), the final labels are assigned by one strictly increasing
global counter over the refined list in cluster-list order, never reset:
every member of the `j`-th refined sub-cluster receives exactly the final
label `j`, so the labels used are the consecutive integers `0, 1, 2, …`
with no gaps or repeats across pre-clusters. -/
theorem MINT_labels_global_counter
    (suites : List Suite) (cluster_list : List (List ℕ)) (nms : NmsFn)
    {refined : List (List ℕ)} {s' : List Suite}
    (hM : MINT suites cluster_list nms = (refined, s'))
    (hdisj : refined.Pairwise List.Disjoint)
    (hnod : ∀ c ∈ refined, c.Nodup)
    (hbound : ∀ c ∈ refined, ∀ s ∈ c, s < suites.length) :
    refined = MINTrefined suites nms cluster_list ∧
    ∀ j, j < refined.length → ∀ sidx ∈ refined.getD j [],
      mintLabel (s'.getD sidx default) = some j := by
  have href : refined = MINTrefined suites nms cluster_list :=
    (congrArg Prod.fst hM).symm
  have hs' : s' = (mintLabelFold suites 0 (MINTrefined suites nms cluster_list)).1 :=
    (congrArg Prod.snd hM).symm
  rw [← href] at hs'
  rw [mintLabelFold_eq] at hs'
  refine ⟨href, ?_⟩
  intro j hj sidx hsidx
  have hw : (sidx, j) ∈ idxWrites id 0 refined :=
    (mem_idxWrites id 0 refined sidx j).mpr ⟨j, hj, (Nat.zero_add j).symm, hsidx⟩
  have hndw : ((idxWrites id 0 refined).map Prod.fst).Nodup := by
    rw [map_fst_idxWrites]
    exact nodup_flatten_of_pairwise hdisj hnod
  have hlt : sidx < suites.length := by
    refine hbound (refined.getD j []) ?_ sidx hsidx
    rw [List.getD_eq_getElem _ [] hj]
    exact List.getElem_mem hj
  rw [hs', writeAll_getD_mem applyMint hndw hw hlt, mintLabel_applyMint]

theorem MINTrefined_filter_empty (suites : List Suite) (nms : NmsFn)
    (cluster_list : List (List ℕ)) :
    MINTrefined suites nms (cluster_list.filter (fun e => !e.isEmpty)) =
      MINTrefined suites nms cluster_list := by
  induction cluster_list with
  | nil => rfl
  | cons e r ih =>
    simp only [MINTrefined] at ih ⊢
    by_cases he : e = []
    · subst he
      have h1 : (([] : List ℕ) :: r).filter (fun e => !e.isEmpty) =
          r.filter (fun e => !e.isEmpty) := by simp
      have h2 : entryRefined suites nms [] = [] := by simp [entryRefined]
      rw [h1, ih, List.flatMap_cons, h2, List.nil_append]
    · have h1 : (e :: r).filter (fun e => !e.isEmpty) =
          e :: r.filter (fun e => !e.isEmpty) := by
        simp [List.filter_cons, List.isEmpty_iff, he]
      rw [h1, List.flatMap_cons, List.flatMap_cons, ih]

/-- C7: empty cluster-list entries are skipped wholesale (filtering them out
does not change the refined cluster list); a non-empty entry contributes the
collaborator's sub-partitions with their local row indices mapped back
through that entry's own identifier list; and — when the collaborator
returns in-range sub-partitions disjoint from its noise set over pairwise
disjoint, duplicate-free entries — a noise-designated item appears nowhere
in the refined cluster list and its suite is returned completely unchanged
(no final label; only its pre-cluster label from `AGE` remains). -/
theorem MINT_empty_skip_and_noise
    (suites : List Suite) (nms : NmsFn) (cluster_list : List (List ℕ)) :
    (MINTrefined suites nms (cluster_list.filter (fun e => !e.isEmpty)) =
      MINTrefined suites nms cluster_list) ∧
    (∀ e ∈ cluster_list, e ≠ [] →
      entryRefined suites nms e =
        (entrySubs suites nms e).map (fun sc => sc.map (fun idx => e.getD idx 0))) ∧
    (∀ e ∈ cluster_list, e ≠ [] → e.Nodup →
      cluster_list.Pairwise List.Disjoint →
      (∀ e' ∈ cluster_list, ∀ sc ∈ entrySubs suites nms e', ∀ idx ∈ sc,
        idx < e'.length) →
      ∀ nidx ∈ entryNoise suites nms e, nidx < e.length →
        (∀ sc ∈ entrySubs suites nms e, nidx ∉ sc) →
        e.getD nidx 0 ∉ (MINTrefined suites nms cluster_list).flatten ∧
        (MINT suites cluster_list nms).2.getD (e.getD nidx 0) default =
          suites.getD (e.getD nidx 0) default) := by
  refine ⟨MINTrefined_filter_empty suites nms cluster_list, ?_, ?_⟩
  · intro e _ he
    rw [entryRefined, if_neg he]
  · intro e hecl he hnod hpair hrange nidx hnoise hnlt hndisj
    have hid : e.getD nidx 0 ∈ e := getD_mem_of_lt hnlt
    have hnotflat : e.getD nidx 0 ∉ (MINTrefined suites nms cluster_list).flatten := by
      intro hmem
      obtain ⟨rc, hrc, hin⟩ := List.mem_flatten.mp hmem
      obtain ⟨e', hecl', hre⟩ := List.mem_flatMap.mp hrc
      rw [entryRefined] at hre
      by_cases he' : e' = []
      · rw [if_pos he'] at hre
        cases hre
      · rw [if_neg he'] at hre
        obtain ⟨sc, hsc, rfl⟩ := List.mem_map.mp hre
        obtain ⟨idx, hidx, hide⟩ := List.mem_map.mp hin
        have hidxlt : idx < e'.length := hrange e' hecl' sc hsc idx hidx
        by_cases heq : e' = e
        · subst heq
          have : idx = nidx := nodup_getD_inj hnod hidxlt hnlt hide
          subst this
          exact hndisj sc hsc hidx
        · have hdisj : List.Disjoint e e' :=
            List.Pairwise.forall (fun _ _ h => h.symm) hpair hecl hecl'
              (fun h => heq h.symm)
          exact hdisj (hide ▸ hid) (hide ▸ getD_mem_of_lt hidxlt)
    refine ⟨hnotflat, ?_⟩
    have hs' : (MINT suites cluster_list nms).2 =
        writeAll applyMint suites
          (idxWrites id 0 (MINTrefined suites nms cluster_list)) := by
      show (mintLabelFold suites 0 (MINTrefined suites nms cluster_list)).1 = _
      rw [mintLabelFold_eq]
    rw [hs']
    refine writeAll_getD_not_mem applyMint ?_ default
    rw [map_fst_idxWrites]
    exact hnotflat

/-! ## Concrete witness fixtures for `MINT` and the pipeline -/

/-- Mode-hunting stand-in: one sub-cluster covering all rows, no noise. -/
def witNms : NmsFn := fun _ data _ _ => ([List.range data.length], [])

/-- Mode-hunting stand-in returning two singleton sub-clusters, no noise. -/
def witNmsSplit : NmsFn := fun _ _ _ _ => ([[0], [1]], [])

/-- Mode-hunting stand-in returning one sub-cluster and one noise index. -/
def witNmsNoise : NmsFn := fun _ _ _ _ => ([[0]], [1])

/-- A visualization collaborator that always fails. -/
def witPlotFail : List Suite → List (List ℕ) → Except String Unit :=
  fun _ _ => .error "PlotError"

/-- A visualization collaborator that always succeeds. -/
def witPlotOk : List Suite → List (List ℕ) → Except String Unit :=
  fun _ _ => .ok ()

/-- `witLabeled` after the `witNmsSplit` MINT run: items 0 and 2 get final
labels 0 and 1. -/
def witMintSplit : List Suite :=
  [⟨some [0], some ⟨some (PLabel.idx 0), some 0⟩⟩, ⟨none, none⟩,
   ⟨some [1], some ⟨some (PLabel.idx 0), some 1⟩⟩,
   ⟨some [10], some ⟨some PLabel.outlier, none⟩⟩]

/-- The fully labelled suites of the witness pipeline run (single refined
cluster `[0, 2]`, final label 0). -/
def witFinal : List Suite :=
  [⟨some [0], some ⟨some (PLabel.idx 0), some 0⟩⟩, ⟨none, none⟩,
   ⟨some [1], some ⟨some (PLabel.idx 0), some 0⟩⟩,
   ⟨some [10], some ⟨some PLabel.outlier, none⟩⟩]

theorem MINT_labels_global_counter_witness :
    (MINT witLabeled witCl witNmsSplit = ([[0], [2]], witMintSplit) ∧
      ([[0], [2]] : List (List ℕ)).Pairwise List.Disjoint ∧
      (∀ c ∈ ([[0], [2]] : List (List ℕ)), c.Nodup) ∧
      (∀ c ∈ ([[0], [2]] : List (List ℕ)), ∀ s ∈ c, s < witLabeled.length)) ∧
    (([[0], [2]] : List (List ℕ)) = MINTrefined witLabeled witNmsSplit witCl ∧
    ∀ j, j < ([[0], [2]] : List (List ℕ)).length →
      ∀ sidx ∈ ([[0], [2]] : List (List ℕ)).getD j [],
        mintLabel (witMintSplit.getD sidx default) = some j) := by
  have hM : MINT witLabeled witCl witNmsSplit = ([[0], [2]], witMintSplit) := rfl
  have hdisj : ([[0], [2]] : List (List ℕ)).Pairwise List.Disjoint := by
    refine List.Pairwise.cons ?_ (List.pairwise_singleton _ _)
    intro b hb
    rw [List.mem_singleton] at hb
    subst hb
    intro x hx hx2
    rw [List.mem_singleton] at hx hx2
    subst hx
    cases hx2
  have hnod : ∀ c ∈ ([[0], [2]] : List (List ℕ)), c.Nodup := by decide
  have hbound : ∀ c ∈ ([[0], [2]] : List (List ℕ)), ∀ s ∈ c,
      s < witLabeled.length := by decide
  exact ⟨⟨hM, hdisj, hnod, hbound⟩,
    MINT_labels_global_counter witLabeled witCl witNmsSplit hM hdisj hnod hbound⟩

theorem MINT_empty_skip_and_noise_witness :
    (([0, 2] : List ℕ) ∈ witCl ∧ ([0, 2] : List ℕ) ≠ [] ∧
      ([0, 2] : List ℕ).Nodup ∧ witCl.Pairwise List.Disjoint ∧
      (∀ e' ∈ witCl, ∀ sc ∈ entrySubs witLabeled witNmsNoise e', ∀ idx ∈ sc,
        idx < e'.length) ∧
      (1 : ℕ) ∈ entryNoise witLabeled witNmsNoise [0, 2] ∧
      (1 : ℕ) < ([0, 2] : List ℕ).length ∧
      (∀ sc ∈ entrySubs witLabeled witNmsNoise [0, 2], (1 : ℕ) ∉ sc)) ∧
    (MINTrefined witLabeled witNmsNoise (witCl.filter (fun e => !e.isEmpty)) =
      MINTrefined witLabeled witNmsNoise witCl) ∧
    (entryRefined witLabeled witNmsNoise [0, 2] =
      (entrySubs witLabeled witNmsNoise [0, 2]).map
        (fun sc => sc.map (fun idx => ([0, 2] : List ℕ).getD idx 0))) ∧
    (([0, 2] : List ℕ).getD 1 0 ∉
        (MINTrefined witLabeled witNmsNoise witCl).flatten ∧
      (MINT witLabeled witCl witNmsNoise).2.getD (([0, 2] : List ℕ).getD 1 0)
          default =
        witLabeled.getD (([0, 2] : List ℕ).getD 1 0) default) := by
  have h := MINT_empty_skip_and_noise witLabeled witNmsNoise witCl
  have he : ([0, 2] : List ℕ) ∈ witCl := by decide
  have hne : ([0, 2] : List ℕ) ≠ [] := by decide
  have hnod : ([0, 2] : List ℕ).Nodup := by decide
  have hpair : witCl.Pairwise List.Disjoint := List.pairwise_singleton _ _
  have hrange : ∀ e' ∈ witCl, ∀ sc ∈ entrySubs witLabeled witNmsNoise e',
      ∀ idx ∈ sc, idx < e'.length := by decide
  have hnmem : (1 : ℕ) ∈ entryNoise witLabeled witNmsNoise [0, 2] := by decide
  have hnlt : (1 : ℕ) < ([0, 2] : List ℕ).length := by decide
  have hnd : ∀ sc ∈ entrySubs witLabeled witNmsNoise [0, 2], (1 : ℕ) ∉ sc := by
    decide
  exact ⟨⟨he, hne, hnod, hpair, hrange, hnmem, hnlt, hnd⟩, h.1,
    h.2.1 _ he hne,
    h.2.2 _ he hne hnod hpair hrange 1 hnmem hnlt hnd⟩

/-! ## C3: what actually happens with fewer than two eligible items -/

/-- C3 counterexample: on an item collection with fewer than 2 eligible
items (here zero and one eligible), the error propagating out of `AGE` is
the distance/linkage library's `ValueError` — it is not an
`InsufficientDataError`; no exception class of that name exists anywhere in
the program. -/
theorem AGE_insufficient_data_error_is_ValueError :
    AGE witMetric [⟨none, none⟩] witMethod (3/20) 20 = .error "ValueError" ∧
    AGE witMetric [⟨some [0], none⟩] witMethod (3/20) 20 = .error "ValueError" ∧
    AGE witMetric [⟨none, none⟩] witMethod (3/20) 20 ≠
      .error "InsufficientDataError" ∧
    AGE witMetric [⟨some [0], none⟩] witMethod (3/20) 20 ≠
      .error "InsufficientDataError" := by
  have h0 : AGE witMetric [⟨none, none⟩] witMethod (3/20) 20 =
      .error "ValueError" := rfl
  have h1 : AGE witMetric [⟨some [0], none⟩] witMethod (3/20) 20 =
      .error "ValueError" := rfl
  refine ⟨h0, h1, ?_, ?_⟩
  · intro h
    exact absurd (Except.error.inj (h0.symm.trans h)) (by decide)
  · intro h
    exact absurd (Except.error.inj (h1.symm.trans h)) (by decide)

/-- C3 (amended): when fewer than 2 eligible items exist, the
distance/linkage step fails — with the library's `ValueError`, since no
`InsufficientDataError` class exists — and the error propagates uncaught:
`AGE` returns it and the pipeline aborts with no terminal result artifact
written. -/
theorem AGE_insufficient_data_aborts
    (metric : List ℚ → List ℚ → ℚ) (parsed : List Suite)
    (procrustesFn : List Suite → List Suite)
    (method : List ℚ → Except String (List LinkRow)) (nms : NmsFn)
    (plotFn : List Suite → List (List ℕ) → Except String Unit)
    (p : ℚ) (m : ℕ) (plot : Bool)
    (hfew : (eligibleData (procrustesFn parsed)).length < 2)
    (hmeth : method [] = .error "ValueError") :
    AGE metric (procrustesFn parsed) method p m = .error "ValueError" ∧
    run_mint_age_pipeline parsed procrustesFn metric method nms plotFn m p plot =
      (.error "ValueError", false) := by
  have hAGE : AGE metric (procrustesFn parsed) method p m = .error "ValueError" := by
    rcases hlen : eligibleData (procrustesFn parsed) with _ | ⟨v, rest⟩
    · have hpd : pdist metric (eligibleData (procrustesFn parsed)) =
          .error "ValueError" := by rw [hlen]; rfl
      simp [AGE, hpd]
    · have hrest : rest = [] := by
        rw [hlen] at hfew
        simp only [List.length_cons] at hfew
        exact List.eq_nil_of_length_eq_zero (by omega)
      subst hrest
      have hpd : pdist metric (eligibleData (procrustesFn parsed)) = .ok [] := by
        rw [hlen]
        show pdist metric [v] = .ok []
        unfold pdist
        have hr1 : List.range 1 = [0] := rfl
        simp [hr1]
      simp [AGE, hpd, hmeth]
  refine ⟨hAGE, ?_⟩
  unfold run_mint_age_pipeline
  simp [hAGE]

theorem AGE_insufficient_data_aborts_witness :
    ((eligibleData (id [(⟨none, none⟩ : Suite), ⟨some [0], none⟩])).length < 2 ∧
      witMethod [] = .error "ValueError") ∧
    (AGE witMetric (id [(⟨none, none⟩ : Suite), ⟨some [0], none⟩]) witMethod
        (3/20) 20 = .error "ValueError" ∧
      run_mint_age_pipeline [(⟨none, none⟩ : Suite), ⟨some [0], none⟩] id
          witMetric witMethod witNms witPlotOk 20 (3/20) true =
        (.error "ValueError", false)) := by
  have h1 : (eligibleData
      (id [(⟨none, none⟩ : Suite), ⟨some [0], none⟩])).length < 2 := by decide
  have h2 : witMethod [] = .error "ValueError" := rfl
  exact ⟨⟨h1, h2⟩,
    AGE_insufficient_data_aborts witMetric
      [(⟨none, none⟩ : Suite), ⟨some [0], none⟩] id witMethod witNms witPlotOk
      (3/20) 20 true h1 h2⟩

/-! ## C9: a plotting failure aborts the pipeline before persistence -/

/-- C9 (code defect evidence): the pipeline has no handler around the
visualization call, which precedes the persistence of the terminal
artifact.  On a concrete run whose plotting collaborator fails, the
pipeline returns the plotting error and the terminal artifact is not
persisted; the identical run with plotting disabled, or with a succeeding
plotter, returns the final labelled suites and persists the artifact — so
the failure of the collaborator alone destroys the primary output. -/
theorem pipeline_plot_failure_aborts :
    run_mint_age_pipeline witSuites id witMetric witMethod witNms witPlotFail
        2 (2/5) true = (.error "PlotError", false) ∧
    run_mint_age_pipeline witSuites id witMetric witMethod witNms witPlotFail
        2 (2/5) false = (.ok witFinal, true) ∧
    run_mint_age_pipeline witSuites id witMetric witMethod witNms witPlotOk
        2 (2/5) true = (.ok witFinal, true) :=
  ⟨rfl, rfl, rfl⟩

end MintAge
